import Mathlib

/-!
Shallow embedding of the gocache in-process TTL cache (src/gocache.go).

Time instants are `Int` values (Go `time.Time.UnixNano()`); durations are
`Int` (Go `time.Duration`, nanoseconds).  The cached value type `interface \x7b\x7d`
becomes a type parameter `α`.  The Go `map[string]Item` is modelled as an
association list whose keys are unique in every reachable state (Go map
keys are unique by construction); `eraseKey` therefore removes every
binding of the key, which coincides with Go's `delete` on such lists.
Locking and goroutine scheduling are outside the embedding: every
operation is a pure function of the cache state and of an explicit
current instant `now`, and the background sweep goroutine is modelled by
its single loop iteration `gcPass` plus the Boolean returned by `New`
recording whether the goroutine was launched.
-/

/-- Go `Item`: Value, Created, Expiration (UnixNano, 0 = never expires). -/
structure Item (α : Type) where
  value : α
  created : Int
  expiration : Int
  deriving Repr, DecidableEq

/-- Go `Cache` without the `sync.RWMutex` (locks are invisible to the
functional model): defaultExpiration, cleanupInterval, items. -/
structure Cache (α : Type) where
  defaultExpiration : Int
  cleanupInterval : Int
  items : List (String × Item α)
  deriving Repr, DecidableEq

/-- Go map read `item, found := c.items[key]` on the association-list model. -/
def lookupKey {α : Type} (key : String) : List (String × Item α) → Option (Item α)
  | [] => none
  | (k, it) :: rest => if k = key then some it else lookupKey key rest

/-- Go map write `c.items[key] = item`: replace the binding if present,
otherwise append. -/
def setKey {α : Type} (key : String) (it : Item α) : List (String × Item α) → List (String × Item α)
  | [] => [(key, it)]
  | (k, old) :: rest => if k = key then (key, it) :: rest else (k, old) :: setKey key it rest

/-- Go `delete(c.items, key)`: drop the bindings of `key` (unique in
every reachable state). -/
def eraseKey {α : Type} (key : String) (items : List (String × Item α)) :
    List (String × Item α) :=
  items.filter (fun p => p.1 ≠ key)

/-- Go `New`: empty map, both durations stored; the Boolean records
whether `startGC` ran `go c.gc()` (it does iff cleanupInterval > 0), the
detached goroutine itself being outside the functional model. -/
def New (α : Type) (defaultExpiration cleanupInterval : Int) : Cache α × Bool :=
  let cache : Cache α :=
    { items := [], defaultExpiration := defaultExpiration, cleanupInterval := cleanupInterval }
  if 0 < cleanupInterval then (cache, true) else (cache, false)

/-- Go `Set`: substitute the default TTL when duration == 0, compute the
expiration stamp (`now + duration` when the result is positive, else 0),
and overwrite the key's entry.  Go reads `time.Now()` twice (stamp and
`Created`); both reads are the same instant `now` here. -/
def Cache.Set {α : Type} (c : Cache α) (now : Int) (key : String) (value : α)
    (duration : Int) : Cache α :=
  let duration := if duration = 0 then c.defaultExpiration else duration
  let expiration : Int := if 0 < duration then now + duration else 0
  { c with items := setKey key { value := value, created := now, expiration := expiration } c.items }

/-- Go `Get`: `nil, false` when absent; when `Expiration > 0` and
`now > Expiration` (two nested ifs, flattened to one conjunction) also
`nil, false`; otherwise the stored value.  The source never writes to
the map here, so the function returns no state. -/
def Cache.Get {α : Type} (c : Cache α) (now : Int) (key : String) : Option α :=
  match lookupKey key c.items with
  | none => none
  | some item =>
    if 0 < item.expiration ∧ item.expiration < now then none else some item.value

/-- Go `Delete`: error "key not found" when absent, otherwise remove the
binding. -/
def Cache.Delete {α : Type} (c : Cache α) (key : String) : Except String (Cache α) :=
  match lookupKey key c.items with
  | none => Except.error "key not found"
  | some _ => Except.ok { c with items := eraseKey key c.items }

/-- Loop body of Go `expiredKeys`: collect the keys whose entry satisfies
`now > Expiration && Expiration > 0`. -/
def expiredKeysLoop {α : Type} (now : Int) : List (String × Item α) → List String
  | [] => []
  | (k, i) :: rest =>
    if i.expiration < now ∧ 0 < i.expiration then k :: expiredKeysLoop now rest
    else expiredKeysLoop now rest

/-- Go `expiredKeys` (the scan happens under the read lock; `time.Now()`
inside the loop is the one instant `now` here). -/
def Cache.expiredKeys {α : Type} (c : Cache α) (now : Int) : List String :=
  expiredKeysLoop now c.items

/-- Loop body of Go `clearItems`: delete each collected key. -/
def clearItemsLoop {α : Type} (keys : List String) (items : List (String × Item α)) :
    List (String × Item α) :=
  keys.foldl (fun acc k => eraseKey k acc) items

/-- Go `clearItems`. -/
def Cache.clearItems {α : Type} (c : Cache α) (keys : List String) : Cache α :=
  { c with items := clearItemsLoop keys c.items }

/-- One iteration of the Go `gc` loop after the timer fires: collect the
expired keys and, when the collection is non-empty, delete them.  The
`c.items == nil` early return is unreachable (New always allocates the
map) and has no counterpart on lists. -/
def Cache.gcPass {α : Type} (c : Cache α) (now : Int) : Cache α :=
  let keys := c.expiredKeys now
  if keys.length ≠ 0 then c.clearItems keys else c

/-- Loop body of Go `Count`: `for range c.items \x7b count++ \x7d`. -/
def countLoop {α : Type} : List (String × Item α) → Nat
  | [] => 0
  | _ :: rest => countLoop rest + 1

/-- Go `Count`. -/
def Cache.Count {α : Type} (c : Cache α) : Nat :=
  countLoop c.items

/-- Go `GetItem`: same lookup and expiry test as `Get`; on success a
fresh `Item` literal copying the three fields is returned. -/
def Cache.GetItem {α : Type} (c : Cache α) (now : Int) (key : String) :
    Except String (Item α) :=
  match lookupKey key c.items with
  | none => Except.error "key not found"
  | some item =>
    if 0 < item.expiration ∧ item.expiration < now then Except.error "key not found"
    else Except.ok { value := item.value, expiration := item.expiration, created := item.created }

/-- Go `Expire`: true when absent, true when present and past a positive
expiration stamp, false otherwise; the map is only read. -/
def Cache.Expire {α : Type} (c : Cache α) (now : Int) (key : String) : Bool :=
  match lookupKey key c.items with
  | none => true
  | some item =>
    if 0 < item.expiration ∧ item.expiration < now then true else false

/-- The spec's data-model invariant (§3): every stored expiration stamp
is non-negative. -/
def Cache.WF {α : Type} (c : Cache α) : Prop :=
  ∀ p ∈ c.items, 0 ≤ p.2.expiration

instance {α : Type} (c : Cache α) : Decidable c.WF := by
  unfold Cache.WF
  infer_instance

/-! ### Association-list lemmas -/

theorem lookup_setKey {α : Type} (key k : String) (it : Item α)
    (items : List (String × Item α)) :
    lookupKey k (setKey key it items) =
      if k = key then some it else lookupKey k items := by
  induction items with
  | nil =>
    by_cases h : k = key
    · subst h; simp [setKey, lookupKey]
    · simp [setKey, lookupKey, h, Ne.symm h]
  | cons p rest ih =>
    obtain ⟨k0, old⟩ := p
    by_cases h0 : k0 = key
    · subst h0
      simp only [setKey, if_pos rfl, lookupKey]
      by_cases h : k0 = k
      · simp [h]
      · simp [h, Ne.symm h, lookupKey]
    · simp only [setKey, if_neg h0, lookupKey, ih]
      by_cases h : k0 = k
      · subst h
        simp [h0]
      · simp [h]

theorem eraseKey_cons {α : Type} (key k0 : String) (old : Item α)
    (rest : List (String × Item α)) :
    eraseKey key ((k0, old) :: rest) =
      if k0 = key then eraseKey key rest else (k0, old) :: eraseKey key rest := by
  simp only [eraseKey, List.filter_cons]
  by_cases h : k0 = key <;> simp [h]

theorem lookup_eraseKey {α : Type} (key k : String) (items : List (String × Item α)) :
    lookupKey k (eraseKey key items) =
      if k = key then none else lookupKey k items := by
  induction items with
  | nil => simp [eraseKey, lookupKey]
  | cons p rest ih =>
    obtain ⟨k0, old⟩ := p
    rw [eraseKey_cons]
    by_cases h0 : k0 = key
    · rw [if_pos h0, ih]
      subst h0
      by_cases h : k = k0
      · simp [h]
      · simp [h, Ne.symm h, lookupKey]
    · rw [if_neg h0]
      simp only [lookupKey, ih]
      by_cases h : k0 = k
      · subst h
        simp [h0]
      · simp [h]

theorem lookup_clearItemsLoop {α : Type} (keys : List String)
    (items : List (String × Item α)) (k : String) :
    lookupKey k (clearItemsLoop keys items) =
      if k ∈ keys then none else lookupKey k items := by
  induction keys generalizing items with
  | nil => simp [clearItemsLoop]
  | cons k0 keys ih =>
    show lookupKey k (clearItemsLoop keys (eraseKey k0 items)) = _
    rw [ih, lookup_eraseKey]
    by_cases h : k ∈ keys <;> by_cases h0 : k = k0 <;>
      simp [h, h0, List.mem_cons]

theorem mem_setKey {α : Type} (key : String) (it : Item α)
    (items : List (String × Item α)) (p : String × Item α)
    (hp : p ∈ setKey key it items) : p = (key, it) ∨ p ∈ items := by
  induction items with
  | nil =>
    simp [setKey] at hp
    exact Or.inl hp
  | cons q rest ih =>
    obtain ⟨k0, old⟩ := q
    by_cases h0 : k0 = key
    · simp only [setKey, h0, if_pos] at hp
      rcases List.mem_cons.mp hp with h | h
      · exact Or.inl h
      · exact Or.inr (List.mem_cons_of_mem _ h)
    · simp only [setKey, h0, if_false, Bool.false_eq_true] at hp
      rcases List.mem_cons.mp hp with h | h
      · exact Or.inr (by simp [h])
      · rcases ih h with h | h
        · exact Or.inl h
        · exact Or.inr (List.mem_cons_of_mem _ h)

theorem mem_eraseKey {α : Type} (key : String) (items : List (String × Item α))
    (p : String × Item α) (hp : p ∈ eraseKey key items) : p ∈ items :=
  List.mem_of_mem_filter hp

theorem mem_clearItemsLoop {α : Type} (keys : List String)
    (items : List (String × Item α)) (p : String × Item α)
    (hp : p ∈ clearItemsLoop keys items) : p ∈ items := by
  induction keys generalizing items with
  | nil => exact hp
  | cons k0 keys ih =>
    exact mem_eraseKey k0 items p (ih (eraseKey k0 items) hp)

theorem mem_expiredKeysLoop_sub {α : Type} (now : Int)
    (items : List (String × Item α)) (k : String)
    (hk : k ∈ expiredKeysLoop now items) : k ∈ items.map Prod.fst := by
  induction items with
  | nil => simp [expiredKeysLoop] at hk
  | cons p rest ih =>
    obtain ⟨k0, i0⟩ := p
    simp only [List.map_cons, List.mem_cons]
    by_cases hc : i0.expiration < now ∧ 0 < i0.expiration
    · simp only [expiredKeysLoop, if_pos hc, List.mem_cons] at hk
      rcases hk with h | h
      · exact Or.inl h
      · exact Or.inr (ih h)
    · simp only [expiredKeysLoop, if_neg hc] at hk
      exact Or.inr (ih hk)

theorem mem_expiredKeysLoop {α : Type} (now : Int)
    (items : List (String × Item α)) (k : String)
    (hnd : (items.map Prod.fst).Nodup) :
    k ∈ expiredKeysLoop now items ↔
      ∃ it, lookupKey k items = some it ∧ 0 < it.expiration ∧ it.expiration < now := by
  induction items with
  | nil => simp [expiredKeysLoop, lookupKey]
  | cons p rest ih =>
    obtain ⟨k0, i0⟩ := p
    simp only [List.map_cons, List.nodup_cons] at hnd
    obtain ⟨hk0, hndr⟩ := hnd
    by_cases hk : k0 = k
    · subst hk
      simp only [lookupKey, if_pos rfl]
      by_cases hc : i0.expiration < now ∧ 0 < i0.expiration
      · simp only [expiredKeysLoop, if_pos hc, List.mem_cons]
        constructor
        · intro _
          exact ⟨i0, rfl, hc.2, hc.1⟩
        · intro _
          simp
      · simp only [expiredKeysLoop, if_neg hc]
        constructor
        · intro h
          exact absurd (mem_expiredKeysLoop_sub now rest k0 h) hk0
        · rintro ⟨it, hit, h1, h2⟩
          obtain rfl : i0 = it := Option.some.inj hit
          exact absurd ⟨h2, h1⟩ hc
    · simp only [lookupKey, if_neg hk]
      by_cases hc : i0.expiration < now ∧ 0 < i0.expiration
      · simp only [expiredKeysLoop, if_pos hc, List.mem_cons]
        rw [ih hndr]
        constructor
        · rintro (h | h)
          · exact absurd h.symm hk
          · exact h
        · intro h
          exact Or.inr h
      · simp only [expiredKeysLoop, if_neg hc]
        exact ih hndr

theorem countLoop_eq_length {α : Type} (items : List (String × Item α)) :
    countLoop items = items.length := by
  induction items with
  | nil => rfl
  | cons p rest ih => simp [countLoop, ih]

theorem length_filter_split {β : Type} (p : β → Bool) (l : List β) :
    (l.filter p).length + (l.filter (fun b => ! p b)).length = l.length := by
  induction l with
  | nil => rfl
  | cons b rest ih =>
    by_cases hb : p b <;> simp [List.filter_cons, hb] <;> omega

/-! ### Concrete cache used by the witnesses -/

/-- A small concrete cache state: a live entry with a positive stamp, a
never-expiring entry, and an already-expired entry (relative to now=10). -/
def wCache : Cache Nat :=
  { defaultExpiration := 0, cleanupInterval := 0,
    items := [("a", { value := 1, created := 0, expiration := 5 }),
              ("b", { value := 2, created := 0, expiration := 0 }),
              ("c", { value := 3, created := 0, expiration := 2 })] }

/-! ### Claim theorems -/

/-- C1: Get returns not-found when the key is absent; returns not-found
when the entry's stamp is positive and strictly in the past; and returns
the stored value when the stamp is 0 or not yet passed.  `Cache.Get`
reads the state and returns no new state, which is how the source's
absence of any map write (the lazy, non-removing expiration) is
reflected. -/
theorem get_spec {α : Type} (c : Cache α) (now : Int) (key : String) :
    (lookupKey key c.items = none → c.Get now key = none) ∧
    (∀ it, lookupKey key c.items = some it → 0 < it.expiration → it.expiration < now →
      c.Get now key = none) ∧
    (∀ it, lookupKey key c.items = some it → (it.expiration = 0 ∨ now ≤ it.expiration) →
      c.Get now key = some it.value) := by
  refine ⟨?_, ?_, ?_⟩
  · intro h
    simp [Cache.Get, h]
  · intro it h h1 h2
    simp [Cache.Get, h, h1, h2]
  · intro it h hd
    rcases hd with h0 | hle
    · simp [Cache.Get, h, h0]
    · simp [Cache.Get, h, not_lt.mpr hle]

theorem get_spec_witness :
    wCache.Get 10 "a" = none ∧ wCache.Get 3 "a" = some 1 ∧ wCache.Get 10 "b" = some 2 :=
  ⟨(get_spec wCache 10 "a").2.1 { value := 1, created := 0, expiration := 5 }
      (by decide) (by decide) (by decide),
   (get_spec wCache 3 "a").2.2 { value := 1, created := 0, expiration := 5 }
      (by decide) (Or.inr (by decide)),
   (get_spec wCache 10 "b").2.2 { value := 2, created := 0, expiration := 0 }
      (by decide) (Or.inl (by decide))⟩

/-- C5: Delete errors with "key not found" exactly when the key is
absent; when present it removes the entry (whatever its expiration stamp,
which the source never consults) and returns the shrunk state with all
other keys untouched. -/
theorem delete_spec {α : Type} (c : Cache α) (key : String) :
    (lookupKey key c.items = none → c.Delete key = Except.error "key not found") ∧
    (∀ it, lookupKey key c.items = some it →
      ∃ cDel, c.Delete key = Except.ok cDel ∧
        lookupKey key cDel.items = none ∧
        ∀ k, k ≠ key → lookupKey k cDel.items = lookupKey k c.items) := by
  refine ⟨?_, ?_⟩
  · intro h
    simp [Cache.Delete, h]
  · intro it h
    refine ⟨{ c with items := eraseKey key c.items }, ?_, ?_, ?_⟩
    · simp [Cache.Delete, h]
    · simp [lookup_eraseKey]
    · intro k hk
      simp [lookup_eraseKey, hk]

theorem delete_spec_witness :
    ∃ cDel, wCache.Delete "c" = Except.ok cDel ∧
      lookupKey "c" cDel.items = none ∧
      ∀ k, k ≠ "c" → lookupKey k cDel.items = lookupKey k wCache.items :=
  (delete_spec wCache "c").2 { value := 3, created := 0, expiration := 2 } (by decide)

/-- C6: Expire answers true for an absent key and for a present entry
whose positive stamp is strictly past, and false for a live entry (stamp
0 or not yet passed); it is a pure query of the state. -/
theorem expire_spec {α : Type} (c : Cache α) (now : Int) (key : String) :
    (lookupKey key c.items = none → c.Expire now key = true) ∧
    (∀ it, lookupKey key c.items = some it → 0 < it.expiration → it.expiration < now →
      c.Expire now key = true) ∧
    (∀ it, lookupKey key c.items = some it → (it.expiration = 0 ∨ now ≤ it.expiration) →
      c.Expire now key = false) := by
  refine ⟨?_, ?_, ?_⟩
  · intro h
    simp [Cache.Expire, h]
  · intro it h h1 h2
    simp [Cache.Expire, h, h1, h2]
  · intro it h hd
    rcases hd with h0 | hle
    · simp [Cache.Expire, h, h0]
    · simp [Cache.Expire, h, not_lt.mpr hle]

theorem expire_spec_witness :
    wCache.Expire 10 "zzz" = true ∧ wCache.Expire 10 "c" = true ∧
      wCache.Expire 10 "b" = false :=
  ⟨(expire_spec wCache 10 "zzz").1 (by decide),
   (expire_spec wCache 10 "c").2.1 { value := 3, created := 0, expiration := 2 }
      (by decide) (by decide) (by decide),
   (expire_spec wCache 10 "b").2.2 { value := 2, created := 0, expiration := 0 }
      (by decide) (Or.inl (by decide))⟩

/-- C7: GetItem performs the same lookup and strict expiry test as Get,
failing with "key not found" exactly when the key is absent or the
positive stamp is strictly past, and on success returns a field-by-field
copy of the stored entry (the source allocates a fresh Item literal; the
pointer-level distinctness of that fresh allocation is outside a
value-level model). -/
theorem getItem_spec {α : Type} (c : Cache α) (now : Int) (key : String) :
    (lookupKey key c.items = none → c.GetItem now key = Except.error "key not found") ∧
    (∀ it, lookupKey key c.items = some it → 0 < it.expiration → it.expiration < now →
      c.GetItem now key = Except.error "key not found") ∧
    (∀ it, lookupKey key c.items = some it → (it.expiration = 0 ∨ now ≤ it.expiration) →
      c.GetItem now key =
        Except.ok { value := it.value, created := it.created, expiration := it.expiration }) := by
  refine ⟨?_, ?_, ?_⟩
  · intro h
    simp [Cache.GetItem, h]
  · intro it h h1 h2
    simp [Cache.GetItem, h, h1, h2]
  · intro it h hd
    rcases hd with h0 | hle
    · simp [Cache.GetItem, h, h0]
    · simp [Cache.GetItem, h, not_lt.mpr hle]

theorem getItem_spec_witness :
    wCache.GetItem 10 "c" = Except.error "key not found" ∧
      wCache.GetItem 3 "a" = Except.ok { value := 1, created := 0, expiration := 5 } :=
  ⟨(getItem_spec wCache 10 "c").2.1 { value := 3, created := 0, expiration := 2 }
      (by decide) (by decide) (by decide),
   (getItem_spec wCache 3 "a").2.2 { value := 1, created := 0, expiration := 5 }
      (by decide) (Or.inr (by decide))⟩

/-- C2: Set substitutes the configured default TTL when the duration
argument is 0; when the effective duration is positive the stored stamp
is now + duration, otherwise 0 (never expires); the key's entry is
unconditionally overwritten wholesale and every other key is
untouched. -/
theorem set_spec {α : Type} (c : Cache α) (now : Int) (key : String) (v : α) (d : Int) :
    (0 < (if d = 0 then c.defaultExpiration else d) →
      lookupKey key (c.Set now key v d).items =
        some { value := v, created := now,
               expiration := now + (if d = 0 then c.defaultExpiration else d) }) ∧
    ((if d = 0 then c.defaultExpiration else d) ≤ 0 →
      lookupKey key (c.Set now key v d).items =
        some { value := v, created := now, expiration := 0 }) ∧
    (∀ k, k ≠ key → lookupKey k (c.Set now key v d).items = lookupKey k c.items) := by
  refine ⟨?_, ?_, ?_⟩
  · intro h
    simp [Cache.Set, lookup_setKey, h]
  · intro h
    simp [Cache.Set, lookup_setKey, not_lt.mpr h]
  · intro k hk
    simp [Cache.Set, lookup_setKey, hk]

theorem set_spec_witness :
    lookupKey "k" ((wCache.Set 100 "k" 7 5).items) =
      some { value := 7, created := 100,
             expiration := 100 + (if (5 : Int) = 0 then wCache.defaultExpiration else 5) } ∧
    lookupKey "k" ((wCache.Set 100 "k" 7 (-4)).items) =
      some { value := 7, created := 100, expiration := 0 } ∧
    lookupKey "a" ((wCache.Set 100 "k" 7 5).items) = lookupKey "a" wCache.items :=
  ⟨(set_spec wCache 100 "k" 7 5).1 (by decide),
   (set_spec wCache 100 "k" 7 (-4)).2.1 (by decide),
   (set_spec wCache 100 "k" 7 5).2.2 "a" (by decide)⟩

/-- C3: one pass of the background sweep collects exactly the keys with
a positive stamp strictly in the past, deletes exactly those keys (an
entry with stamp 0 in particular survives every pass), and a pass that
collects nothing leaves the cache unchanged.  The key-uniqueness
hypothesis is the Go map representation invariant. -/
theorem gc_spec {α : Type} (c : Cache α) (now : Int)
    (hnd : (c.items.map Prod.fst).Nodup) :
    (∀ k, k ∈ c.expiredKeys now ↔
      ∃ it, lookupKey k c.items = some it ∧ 0 < it.expiration ∧ it.expiration < now) ∧
    (∀ k, lookupKey k (c.gcPass now).items =
      if k ∈ c.expiredKeys now then none else lookupKey k c.items) ∧
    (∀ k it, lookupKey k c.items = some it → it.expiration = 0 →
      lookupKey k (c.gcPass now).items = some it) ∧
    (c.expiredKeys now = [] → c.gcPass now = c) := by
  have hmem : ∀ k, k ∈ c.expiredKeys now ↔
      ∃ it, lookupKey k c.items = some it ∧ 0 < it.expiration ∧ it.expiration < now :=
    fun k => mem_expiredKeysLoop now c.items k hnd
  have hpass : ∀ k, lookupKey k (c.gcPass now).items =
      if k ∈ c.expiredKeys now then none else lookupKey k c.items := by
    intro k
    simp only [Cache.gcPass, Cache.clearItems]
    by_cases hc : (c.expiredKeys now).length ≠ 0
    · rw [if_pos hc]
      exact lookup_clearItemsLoop (c.expiredKeys now) c.items k
    · rw [if_neg hc]
      have hlen : (c.expiredKeys now).length = 0 := by omega
      have hnil : c.expiredKeys now = [] := List.length_eq_zero.mp hlen
      simp [hnil]
  refine ⟨hmem, hpass, ?_, ?_⟩
  · intro k it hlk h0
    rw [hpass k]
    have hnot : k ∉ c.expiredKeys now := by
      intro hk
      rcases (hmem k).1 hk with ⟨it2, hit2, hp, _⟩
      rw [hlk] at hit2
      obtain rfl : it = it2 := Option.some.inj hit2
      rw [h0] at hp
      exact lt_irrefl 0 hp
    simp [hnot, hlk]
  · intro hnil
    simp [Cache.gcPass, hnil]

theorem gc_spec_witness :
    wCache.expiredKeys 10 = ["a", "c"] ∧
    lookupKey "c" ((wCache.gcPass 10).items) = none ∧
    lookupKey "b" ((wCache.gcPass 10).items) =
      some { value := 2, created := 0, expiration := 0 } ∧
    wCache.gcPass 1 = wCache := by
  have h := gc_spec wCache 10 (by decide)
  refine ⟨by decide, ?_, ?_, ?_⟩
  · rw [(h.2.1 "c")]
    simp [show "c" ∈ wCache.expiredKeys 10 by decide]
  · exact h.2.2.1 "b" { value := 2, created := 0, expiration := 0 } (by decide) rfl
  · exact (gc_spec wCache 1 (by decide)).2.2.2 (by decide)

/-- C4: New returns a cache with an empty mapping and both configured
durations stored, together with the fact that the sweep goroutine is
launched (detached, so that New itself returns — modelled by the Boolean
flag) exactly when cleanupInterval > 0. -/
theorem new_spec (α : Type) (de ci : Int) :
    (New α de ci).1.items = [] ∧
    (New α de ci).1.defaultExpiration = de ∧
    (New α de ci).1.cleanupInterval = ci ∧
    ((New α de ci).2 = true ↔ 0 < ci) := by
  by_cases h : 0 < ci <;> simp [New, h]

/-- C8: Count returns the raw physical size of the mapping — at any
instant it equals the number of logically expired entries plus the
number of live ones, so expired-but-unswept entries are counted like
live entries; it is a pure query. -/
theorem count_spec {α : Type} (c : Cache α) (now : Int) :
    c.Count = c.items.length ∧
    c.Count =
      (c.items.filter (fun p => decide (0 < p.2.expiration ∧ p.2.expiration < now))).length +
      (c.items.filter (fun p =>
        ! decide (0 < p.2.expiration ∧ p.2.expiration < now))).length := by
  constructor
  · exact countLoop_eq_length c.items
  · rw [Cache.Count, countLoop_eq_length,
      ← length_filter_split (fun p => decide (0 < p.2.expiration ∧ p.2.expiration < now)) c.items]

/-- C9: starting from a state satisfying the invariant (every stored
stamp non-negative) and a non-negative clock — `time.Now().UnixNano()`
is non-negative on a real clock — every operation preserves the
invariant: the entry written by Set (for any duration argument,
negative defaults included) carries stamp 0 or a strictly positive
strictly-future stamp, Delete and the sweep only remove entries, and New
starts empty. -/
theorem wf_spec {α : Type} (c : Cache α) (now : Int) (key : String) (v : α) (d : Int)
    (hnow : 0 ≤ now) (hwf : c.WF) :
    (c.Set now key v d).WF ∧
    (∀ it, lookupKey key (c.Set now key v d).items = some it →
      it.expiration = 0 ∨ (0 < it.expiration ∧ now < it.expiration)) ∧
    (∀ cDel, c.Delete key = Except.ok cDel → cDel.WF) ∧
    (c.gcPass now).WF ∧
    (∀ de ci : Int, (New α de ci).1.WF) := by
  refine ⟨?_, ?_, ?_, ?_, ?_⟩
  · intro p hp
    simp only [Cache.Set] at hp
    rcases mem_setKey _ _ _ _ hp with h | h
    · rw [h]
      by_cases he : 0 < (if d = 0 then c.defaultExpiration else d)
      · simp only [if_pos he]
        omega
      · simp only [if_neg he]
        exact le_refl 0
    · exact hwf p h
  · intro it hit
    simp only [Cache.Set, lookup_setKey, if_pos rfl] at hit
    obtain rfl : _ = it := Option.some.inj hit
    by_cases he : 0 < (if d = 0 then c.defaultExpiration else d)
    · right
      simp only [if_pos he]
      constructor <;> omega
    · left
      simp only [if_neg he]
  · intro cDel h
    rcases hl : lookupKey key c.items with _ | it
    · simp only [Cache.Delete, hl] at h
      exact Except.noConfusion h
    · simp only [Cache.Delete, hl, Except.ok.injEq] at h
      subst h
      intro p hp
      exact hwf p (mem_eraseKey key c.items p hp)
  · intro p hp
    simp only [Cache.gcPass, Cache.clearItems] at hp
    by_cases hc : (c.expiredKeys now).length ≠ 0
    · rw [if_pos hc] at hp
      exact hwf p (mem_clearItemsLoop _ _ _ hp)
    · rw [if_neg hc] at hp
      exact hwf p hp
  · intro de ci p hp
    by_cases h : 0 < ci <;> simp [New, h] at hp

theorem wf_spec_witness :
    (wCache.Set 7 "z" 9 (-4)).WF ∧
    (wCache.gcPass 7).WF :=
  ⟨((wf_spec wCache 7 "z" 9 (-4)) (by decide) (by decide)).1,
   ((wf_spec wCache 7 "z" 9 (-4)) (by decide) (by decide)).2.2.2.1⟩

/-- C10: an entry is still live at the instant exactly equal to its
positive expiration stamp — at now = Expiration the comparison
`now > Expiration` in Get, GetItem, Expire and the sweep's scan is
strict, so Get yields the value, GetItem succeeds, Expire answers false,
and the key is not collected by the sweep. -/
theorem boundary_spec {α : Type} (c : Cache α) (key : String) (it : Item α)
    (hnd : (c.items.map Prod.fst).Nodup)
    (hl : lookupKey key c.items = some it) (hpos : 0 < it.expiration) :
    c.Get it.expiration key = some it.value ∧
    c.GetItem it.expiration key =
      Except.ok { value := it.value, created := it.created, expiration := it.expiration } ∧
    c.Expire it.expiration key = false ∧
    key ∉ c.expiredKeys it.expiration := by
  have hnlt : ¬ it.expiration < it.expiration := lt_irrefl _
  refine ⟨?_, ?_, ?_, ?_⟩
  · simp [Cache.Get, hl, hnlt]
  · simp [Cache.GetItem, hl, hnlt]
  · simp [Cache.Expire, hl, hnlt]
  · intro hk
    rcases (mem_expiredKeysLoop it.expiration c.items key hnd).1 hk with ⟨it2, hit2, _, hlt2⟩
    rw [hl] at hit2
    obtain rfl : it = it2 := Option.some.inj hit2
    exact hnlt hlt2

theorem boundary_spec_witness :
    wCache.Get 5 "a" = some 1 ∧ wCache.Expire 5 "a" = false :=
  ⟨(boundary_spec wCache "a" { value := 1, created := 0, expiration := 5 }
      (by decide) (by decide) (by decide)).1,
   (boundary_spec wCache "a" { value := 1, created := 0, expiration := 5 }
      (by decide) (by decide) (by decide)).2.2.1⟩
